import Mathlib

/-!
Verification of the fish-tree worktree data layer: a shallow embedding of the
porcelain parser, git error classifier, worktree operations, project discovery,
fuzzy matcher and the interactive application's reducer, together with theorems
about the specified behaviours.

Machine strings are modelled as `List Char`; the JavaScript string operations
used by the source (`split`, `trim`, `startsWith`, `slice`, `includes`,
`replace` of a first occurrence, `toLowerCase` on ASCII) are given explicit
structural definitions so that everything evaluates inside the kernel.
Subprocess calls are modelled by passing their outcome as an explicit argument.
-/

namespace FishTree

/-- Strings are modelled as lists of characters. -/
abbrev Str := List Char

/-- Convenience: the character list of a Lean string literal. -/
def str (s : String) : Str := s.data

/-- The single-quote character, built numerically. -/
def sq : Char := Char.ofNat 39

/-- Whitespace as trimmed by the source's `trim()` calls (ASCII subset). -/
def isWS (c : Char) : Bool := c = ' ' || c = '\t' || c = '\n' || c = '\r'

/-- Model of JavaScript `s.trim()`: drop whitespace from both ends. -/
def trimChars (s : Str) : Str :=
  ((s.dropWhile isWS).reverse.dropWhile isWS).reverse

/-- Model of JavaScript `s.split("\n")`. -/
def splitLines : Str → List Str
  | [] => [[]]
  | c :: cs =>
    if c = '\n' then [] :: splitLines cs
    else
      match splitLines cs with
      | [] => [[c]]
      | l :: ls => (c :: l) :: ls

/-- Model of JavaScript `s.split("\n\n")`: split at each non-overlapping
occurrence of two consecutive newlines, scanning left to right. -/
def splitBlocks : Str → List Str
  | [] => [[]]
  | [c] => [[c]]
  | c :: c' :: cs =>
    if c = '\n' ∧ c' = '\n' then [] :: splitBlocks cs
    else
      match splitBlocks (c' :: cs) with
      | [] => [[c]]
      | l :: ls => (c :: l) :: ls

/-- Model of JavaScript `s.startsWith(pat)`. -/
def hasPrefixCh : Str → Str → Bool
  | [], _ => true
  | _ :: _, [] => false
  | p :: ps, c :: cs => p = c && hasPrefixCh ps cs

/-- Model of JavaScript `s.includes(pat)`. -/
def containsSub (pat : Str) : Str → Bool
  | [] => pat.isEmpty
  | c :: cs => hasPrefixCh pat (c :: cs) || containsSub pat cs

/-- Model of JavaScript `s.replace(pat, "")` for a nonempty plain-string
pattern: removes the first occurrence of `pat`, if any. -/
def removeFirst (pat : Str) : Str → Str
  | [] => []
  | c :: cs =>
    if hasPrefixCh pat (c :: cs) then (c :: cs).drop pat.length
    else c :: removeFirst pat cs

/-- Model of JavaScript `s.toLowerCase()` on the ASCII inputs used here. -/
def lowerStr (s : Str) : Str := s.map Char.toLower

/-- Model of the source's sequential-character loop in `fuzzyMatch`: advance
through the target, consuming query characters greedily in order. -/
def seqMatch : Str → Str → Bool
  | q, [] => q.isEmpty
  | q, t :: ts =>
    match q with
    | [] => true
    | qc :: qs => if t = qc then seqMatch qs ts else seqMatch (qc :: qs) ts

/-- Join a list of strings with a separator (used to build parser inputs). -/
def joinSep (sep : Str) : List Str → Str
  | [] => []
  | [x] => x
  | x :: y :: xs => x ++ sep ++ joinSep sep (y :: xs)

/-- Model of node's posix `path.basename`: strip trailing slashes, then take
the final path segment. -/
def basename (p : Str) : Str :=
  ((p.reverse.dropWhile (fun c => c = '/')).takeWhile (fun c => !(c = '/'))).reverse

/-- Worktree record, as parsed from `git worktree list --porcelain`. -/
structure Worktree where
  path : Str
  head : Str
  branch : Option Str
  isMain : Bool
  isLocked : Bool
  isPrunable : Bool
deriving DecidableEq

/-- The closed set of git error codes. -/
inductive GitErrorCode where
  | WORKTREE_EXISTS
  | BRANCH_EXISTS
  | DIRTY_WORKTREE
  | NOT_A_REPO
  | WORKTREE_NOT_FOUND
  | COMMAND_FAILED
deriving DecidableEq

/-- Structured git error: code, canned message, raw stderr. -/
structure GitError where
  code : GitErrorCode
  message : Str
  stderr : Str
deriving DecidableEq

/-- Discriminated result type of all git operations. -/
inductive GitResult (α : Type) where
  | ok (value : α)
  | error (e : GitError)
deriving DecidableEq

/-- Options for creating a worktree. -/
structure WorktreeCreateOptions where
  basePath : Str
  branch : Str
  startPoint : Option Str
  createBranch : Bool
deriving DecidableEq

/-- A project: one repository plus its worktrees. -/
structure Project where
  name : Str
  gitDir : Str
  mainWorktree : Str
  worktrees : List Worktree
deriving DecidableEq

/-- Mutable locals of the per-block loop in `parsePorcelain`. -/
structure BlockFields where
  path : Str
  head : Str
  branch : Option Str
  isMain : Bool
  isLocked : Bool
  isPrunable : Bool
deriving DecidableEq

/-- Initial values of the per-block locals. -/
def initFields : BlockFields := ⟨[], [], none, false, false, false⟩

/-- One iteration of the line loop inside `parsePorcelain`, checking the
tagged-line shapes in source order. -/
def parseLine (f : BlockFields) (line : Str) : BlockFields :=
  if hasPrefixCh (str "worktree ") line then
    { f with path := line.drop (str "worktree ").length }
  else if hasPrefixCh (str "HEAD ") line then
    { f with head := line.drop (str "HEAD ").length }
  else if hasPrefixCh (str "branch ") line then
    { f with branch := some (removeFirst (str "refs/heads/") (line.drop (str "branch ").length)) }
  else if line = str "bare" then { f with isMain := true }
  else if line = str "locked" then { f with isLocked := true }
  else if line = str "prunable" then { f with isPrunable := true }
  else if line = str "detached" then { f with branch := none }
  else f

/-- Body of the block loop in `parsePorcelain`: skip blank blocks, parse the
lines, force the first pushed record to be main, skip records without a path. -/
def processBlock (worktrees : List Worktree) (block : Str) : List Worktree :=
  if (trimChars block).isEmpty then worktrees
  else
    let lines := splitLines (trimChars block)
    let f := lines.foldl parseLine initFields
    let isMain := if worktrees.length = 0 then true else f.isMain
    if f.path.isEmpty then worktrees
    else
      worktrees ++ [{ path := f.path
                      head := f.head
                      branch := f.branch
                      isMain := isMain
                      isLocked := f.isLocked
                      isPrunable := f.isPrunable }]

/-- `parsePorcelain` from `src/git/worktree.ts`: split the trimmed output into
blank-line-separated blocks and process each block in order. -/
def parsePorcelain (output : Str) : List Worktree :=
  (splitBlocks (trimChars output)).foldl processBlock []

/-- `classifyGitError`: ordered case-insensitive substring checks on stderr,
first match winning, keeping the raw stderr verbatim. -/
def classifyGitError (stderr : Str) : GitError :=
  let s := lowerStr stderr
  if containsSub (str "already exists") s || containsSub (str "already a worktree") s then
    { code := .WORKTREE_EXISTS, message := str "Worktree already exists", stderr := stderr }
  else if containsSub (str "already checked out") s || containsSub (str "is already checked out") s
      || containsSub (str "already used by worktree") s then
    { code := .BRANCH_EXISTS
      message := str "Branch is already checked out in another worktree"
      stderr := stderr }
  else if containsSub (str "has changes") s || containsSub (str "contains modified or untracked files") s
      || containsSub (str "is dirty") s then
    { code := .DIRTY_WORKTREE, message := str "Worktree has uncommitted changes", stderr := stderr }
  else if containsSub (str "not a git repository") s then
    { code := .NOT_A_REPO, message := str "Not a git repository", stderr := stderr }
  else if containsSub (str "is not a valid worktree") s || containsSub (str "is not a working tree") s then
    { code := .WORKTREE_NOT_FOUND, message := str "Worktree not found", stderr := stderr }
  else
    { code := .COMMAND_FAILED, message := str "Git command failed", stderr := stderr }

/-- `addWorktree`, with the creation subprocess's outcome (`none` = success,
`some stderr` = failure) and the re-listing step's result passed explicitly.
The four-way command-shape branch only affects the subprocess invocation, which
is abstracted by `createOutcome`. -/
def addWorktree (opts : WorktreeCreateOptions) (createOutcome : Option Str)
    (listResult : GitResult (List Worktree)) : GitResult Worktree :=
  match createOutcome with
  | some stderr => .error (classifyGitError stderr)
  | none =>
    match listResult with
    | .error e => .error e
    | .ok wts =>
      match wts.find? (fun wt => wt.path = opts.basePath) with
      | none =>
        .error { code := .COMMAND_FAILED
                 message := str "Worktree was created but not found in list at " ++ opts.basePath
                 stderr := [] }
      | some newWt => .ok newWt

/-- `isWorktreeDirty`, with the `git status --porcelain` outcome passed
explicitly (`none` = the subprocess threw): dirty iff the trimmed output is
nonempty, and any failure is reported as dirty. -/
def isWorktreeDirty (statusOutcome : Option Str) : Bool :=
  match statusOutcome with
  | some out => !(trimChars out).isEmpty
  | none => true

/-- `loadProject` from `src/git/repo.ts`, with the `detectGitDir` result and
the `listWorktrees` result passed explicitly. -/
def loadProject (path : Str) (detected : Option Str)
    (listResult : GitResult (List Worktree)) : Option Project :=
  match detected with
  | none => none
  | some gitDir =>
    let worktrees := match listResult with | .ok v => v | .error _ => []
    let mainWorktree :=
      match (worktrees.find? (fun wt => wt.isMain)).map (fun wt => wt.path) with
      | some p => p
      | none => path
    some { name := basename mainWorktree
           gitDir := gitDir
           mainWorktree := mainWorktree
           worktrees := worktrees }

/-- The deduplicating loop of `discoverProjects`: each entry carries the
configured name (if any) and the `loadProject` result for its path. -/
def discoverLoop (seen : List Str) (acc : List Project) :
    List (Option Str × Option Project) → List Project
  | [] => acc
  | (name, proj?) :: rest =>
    match proj? with
    | none => discoverLoop seen acc rest
    | some project =>
      if seen.contains project.gitDir then discoverLoop seen acc rest
      else
        let project :=
          match name with
          | some n => if n.isEmpty then project else { project with name := n }
          | none => project
        discoverLoop (project.gitDir :: seen) (acc ++ [project]) rest

/-- `discoverProjects`: the current directory's project (already loaded) goes
first and seeds the seen-set; then configured and auto-discovered entries are
processed in declaration order, deduplicated by git-directory path. -/
def discoverProjects (cwdProject : Option Project)
    (entries : List (Option Str × Option Project)) : List Project :=
  let seen := match cwdProject with | some p => [p.gitDir] | none => []
  let projects := match cwdProject with | some p => [p] | none => []
  discoverLoop seen projects entries

/-- `fuzzyMatch` from `src/cli/commands.ts`: tiered, case-insensitive score. -/
def fuzzyMatch (query target : Str) : Nat :=
  let q := lowerStr query
  let t := lowerStr target
  if t = q then 1000
  else if hasPrefixCh q t then 500
  else if containsSub q t then 200
  else if seqMatch q t then 50
  else 0

/-- A flat-list item: a project header or a worktree row. -/
inductive ListItem where
  | projectItem (project : Project)
  | worktreeItem (worktree : Worktree) (project : Project)
deriving DecidableEq

/-- The view field of the application state. -/
inductive View where
  | list
  | create
  | confirmDelete
  | projectPicker
  | help
deriving DecidableEq

/-- Full application state of the interactive browser. -/
structure AppState where
  projects : List Project
  activeProject : Option Project
  selectedIndex : Nat
  filterText : Str
  filteredItems : List ListItem
  view : View
  loading : Bool
  error : Option Str
  selectedPath : Option Str
  collapsedProjects : List Str
  detailPaneVisible : Bool
deriving DecidableEq

/-- All state transitions of the reducer. -/
inductive AppAction where
  | setProjects (projects : List Project)
  | selectProject (project : Project)
  | moveSelection (delta : Int)
  | setFilter (text : Str)
  | selectWorktree
  | toggleProject (projectName : Str)
  | showCreate
  | showDelete
  | showHelp
  | showList
  | setLoading (loading : Bool)
  | setError (error : Option Str)
  | refreshWorktrees (projects : List Project)

/-- The items contributed by one project inside `buildFilteredItems`: a header
when the project or one of its worktrees matches the filter, followed by its
(matching, or all when unfiltered) worktrees when not collapsed. -/
def projectContribution (query : Str) (collapsed : List Str) (project : Project) :
    List ListItem :=
  let projectMatches := query.isEmpty || containsSub query (lowerStr project.name)
  let matchingWorktrees := project.worktrees.filter (fun wt =>
    query.isEmpty ||
      (match wt.branch with
       | some b => containsSub query (lowerStr b)
       | none => false) ||
      containsSub query (lowerStr project.name))
  if !projectMatches && matchingWorktrees.isEmpty then []
  else
    ListItem.projectItem project ::
      (if collapsed.contains project.name then []
       else (if query.isEmpty then project.worktrees else matchingWorktrees).map
         (fun wt => ListItem.worktreeItem wt project))

/-- `buildFilteredItems`: flat list of projects interleaved with their
worktrees, respecting collapse state and the lower-cased filter. -/
def buildFilteredItems (projects : List Project) (collapsed : List Str)
    (filterText : Str) : List ListItem :=
  let query := lowerStr filterText
  projects.foldl (fun items project => items ++ projectContribution query collapsed project) []

/-- Model of `filteredItems.findIndex(i => i.type === "worktree")`:
the index of the first worktree row, or -1. -/
def findWorktreeIndex : List ListItem → Int
  | [] => -1
  | item :: rest =>
    match item with
    | .worktreeItem _ _ => 0
    | .projectItem _ =>
      let r := findWorktreeIndex rest
      if r < 0 then -1 else r + 1

/-- `initialState`: build the unfiltered flat list and auto-select the first
worktree row (falling back to index 0). -/
def initialState (projects : List Project) : AppState :=
  let collapsed : List Str := []
  let filteredItems := buildFilteredItems projects collapsed []
  let firstWorktreeIndex := findWorktreeIndex filteredItems
  { projects := projects
    activeProject := projects.head?
    selectedIndex := if 0 ≤ firstWorktreeIndex then firstWorktreeIndex.toNat else 0
    filterText := []
    filteredItems := filteredItems
    view := .list
    loading := false
    error := none
    selectedPath := none
    collapsedProjects := collapsed
    detailPaneVisible := true }

/-- Shared body of the SET_PROJECTS and REFRESH_WORKTREES cases (a fallthrough
in the source): rebuild the flat list and clamp the cursor. -/
def refreshCase (state : AppState) (projects : List Project) : AppState :=
  let filteredItems := buildFilteredItems projects state.collapsedProjects state.filterText
  let selectedIndex := min state.selectedIndex (max 0 (filteredItems.length - 1))
  { state with
    projects := projects
    filteredItems := filteredItems
    selectedIndex := selectedIndex
    loading := false }

/-- `appReducer` from the state store: pure transition function. -/
def appReducer (state : AppState) (action : AppAction) : AppState :=
  match action with
  | .setProjects projects => refreshCase state projects
  | .refreshWorktrees projects => refreshCase state projects
  | .selectProject project => { state with activeProject := some project }
  | .moveSelection delta =>
    if state.filteredItems.length = 0 then state
    else
      let next : Int := (state.selectedIndex : Int) + delta
      let next := if next < 0 then ((state.filteredItems.length : Int) - 1) else next
      let next := if ((state.filteredItems.length : Int)) ≤ next then 0 else next
      { state with selectedIndex := next.toNat }
  | .setFilter text =>
    let filteredItems := buildFilteredItems state.projects state.collapsedProjects text
    let selectedIndex := min state.selectedIndex (max 0 (filteredItems.length - 1))
    { state with
      filterText := text
      filteredItems := filteredItems
      selectedIndex := selectedIndex }
  | .selectWorktree =>
    match state.filteredItems[state.selectedIndex]? with
    | some (.worktreeItem wt _) => { state with selectedPath := some wt.path }
    | _ => state
  | .toggleProject projectName =>
    let next :=
      if state.collapsedProjects.contains projectName then
        state.collapsedProjects.erase projectName
      else projectName :: state.collapsedProjects
    let filteredItems := buildFilteredItems state.projects next state.filterText
    let selectedIndex := min state.selectedIndex (max 0 (filteredItems.length - 1))
    { state with
      collapsedProjects := next
      filteredItems := filteredItems
      selectedIndex := selectedIndex }
  | .showCreate => { state with view := .create }
  | .showDelete =>
    match state.filteredItems[state.selectedIndex]? with
    | some (.worktreeItem wt _) =>
      if wt.isMain then state else { state with view := .confirmDelete }
    | _ => state
  | .showHelp => { state with view := .help }
  | .showList =>
    let resetItems := buildFilteredItems state.projects state.collapsedProjects []
    { state with
      view := .list
      filterText := []
      filteredItems := resetItems
      error := none }
  | .setLoading loading => { state with loading := loading }
  | .setError e => { state with error := e }

/-- States reachable from some initial state through reducer transitions. -/
inductive Reachable : AppState → Prop where
  | init (projects : List Project) : Reachable (initialState projects)
  | step {s : AppState} (a : AppAction) : Reachable s → Reachable (appReducer s a)

/-- The cursor/flat-list consistency invariant: the cursor is within
max 0 (length - 1) and the flat list is the one derived from the current
projects, collapse set and filter. -/
def CursorInv (s : AppState) : Prop :=
  s.selectedIndex ≤ max 0 (s.filteredItems.length - 1) ∧
  s.filteredItems = buildFilteredItems s.projects s.collapsedProjects s.filterText

/-- A porcelain line carrying a worktree path. -/
def wkLineB (l : Str) : Bool := hasPrefixCh (str "worktree ") l

/-- A line of a well-formed porcelain block: nonempty, newline-free, and not
starting or ending in whitespace. -/
def goodLineB (l : Str) : Bool :=
  !l.isEmpty && l.all (fun c => !(c = '\n')) &&
    !isWS (l.headD 'a') && !isWS (l.reverse.headD 'a')

/-- A well-formed porcelain block: nonempty, made of good lines, with exactly
one `worktree <path>` line whose path is nonempty. -/
def wfBlockB (b : List Str) : Bool :=
  !b.isEmpty && b.all goodLineB && b.countP wkLineB == 1 &&
    b.all (fun l => !wkLineB l || !((l.drop (str "worktree ").length).isEmpty))

/-- The path carried by a block's `worktree <path>` line (first one, if any). -/
def blockPath (b : List Str) : Str :=
  match b.find? (fun l => wkLineB l) with
  | some l => l.drop (str "worktree ").length
  | none => []

/-- Encode a list of blocks (each a list of lines) as porcelain text: lines
joined by newlines, blocks separated by one blank line. -/
def encodeBlocks (blocks : List (List Str)) : Str :=
  joinSep (str "\n\n") (blocks.map (joinSep (str "\n")))

/-- The record produced for a block when it is pushed as the `n`-th worktree. -/
def blockRecord (n : Nat) (b : List Str) : Worktree :=
  let f := b.foldl parseLine initFields
  { path := f.path
    head := f.head
    branch := f.branch
    isMain := if n = 0 then true else f.isMain
    isLocked := f.isLocked
    isPrunable := f.isPrunable }

/-- The records produced for a list of blocks starting at position `n`. -/
def recordsFrom : Nat → List (List Str) → List Worktree
  | _, [] => []
  | n, b :: bs => blockRecord n b :: recordsFrom (n + 1) bs

/-- No two consecutive newline characters. -/
def noDoubleNL : Str → Bool
  | [] => true
  | [_] => true
  | c :: c' :: cs => !(c = '\n' && c' = '\n') && noDoubleNL (c' :: cs)

/-- The classifier input `fatal: 'x' already exists`. -/
def stderrWkExists : Str :=
  str "fatal: " ++ [sq] ++ str "x" ++ [sq] ++ str " already exists"

/-- The classifier input `fatal: 'main' is already checked out at '/y'`. -/
def stderrBranchExists : Str :=
  str "fatal: " ++ [sq] ++ str "main" ++ [sq] ++ str " is already checked out at "
    ++ [sq] ++ str "/y" ++ [sq]

/-- The classifier input `error: 'x' contains modified or untracked files`. -/
def stderrDirty : Str :=
  str "error: " ++ [sq] ++ str "x" ++ [sq] ++ str " contains modified or untracked files"

/-- The classifier input `fatal: not a git repository`. -/
def stderrNotRepo : Str := str "fatal: not a git repository"

/-- An unrecognized classifier input. -/
def stderrOther : Str := str "anything else"

/-- A sample non-main worktree used by witnesses. -/
def sampleWorktree : Worktree :=
  { path := str "/w", head := [], branch := some (str "dev")
    isMain := false, isLocked := false, isPrunable := false }

/-- A sample project used by witnesses. -/
def sampleProject : Project :=
  { name := str "proj", gitDir := str "/g", mainWorktree := str "/w"
    worktrees := [sampleWorktree] }

/-- A sample application state with a two-item flat list. -/
def sampleState : AppState := initialState [sampleProject]

/-- A sample main worktree used by witnesses. -/
def sampleMainWt : Worktree := ⟨str "/m", [], none, true, false, false⟩

/-- The project produced for `sampleMainWt` by a successful listing. -/
def sampleLoaded : Project :=
  { name := str "m", gitDir := str "/g", mainWorktree := str "/m"
    worktrees := [sampleMainWt] }

/-- Two well-formed sample porcelain blocks, used by witnesses. -/
def sampleBlocks : List (List Str) :=
  [[str "worktree /a", str "HEAD abc"], [str "worktree /b"]]

/-- A well-formed sample block whose `branch` line comes before `detached`. -/
def sampleDetachedBlocks : List (List Str) :=
  [[str "worktree /x", str "branch refs/heads/dev", str "detached"]]

/-- C3: the error classifier maps the five specified stderr texts to
WORKTREE_EXISTS, BRANCH_EXISTS, DIRTY_WORKTREE, NOT_A_REPO and COMMAND_FAILED
respectively (ordered case-insensitive substring checks, first match winning),
and for every input the returned error's stderr field is the input verbatim. -/
theorem classifyGitError_cases :
    (classifyGitError stderrWkExists).code = GitErrorCode.WORKTREE_EXISTS ∧
    (classifyGitError stderrBranchExists).code = GitErrorCode.BRANCH_EXISTS ∧
    (classifyGitError stderrDirty).code = GitErrorCode.DIRTY_WORKTREE ∧
    (classifyGitError stderrNotRepo).code = GitErrorCode.NOT_A_REPO ∧
    (classifyGitError stderrOther).code = GitErrorCode.COMMAND_FAILED ∧
    ∀ s : Str, (classifyGitError s).stderr = s := by
  refine ⟨by decide, by decide, by decide, by decide, by decide, ?_⟩
  intro s
  simp only [classifyGitError]
  split_ifs <;> rfl

/-- C8: the dirty check is total with value in Bool; when the underlying
status subprocess fails it returns true (dirty), and on success it returns
false exactly when the trimmed status output is empty. -/
theorem isWorktreeDirty_conservative :
    isWorktreeDirty none = true ∧
    ∀ out : Str, (isWorktreeDirty (some out) = false ↔ (trimChars out).isEmpty = true) := by
  refine ⟨rfl, ?_⟩
  intro out
  unfold isWorktreeDirty
  cases h : (trimChars out).isEmpty <;> simp [h]

/-- C4: when the creation subprocess succeeds but the re-listing does not
contain a worktree whose path equals the requested target path, addWorktree
returns a COMMAND_FAILED error rather than a fabricated success value. -/
theorem addWorktree_missing_path (opts : WorktreeCreateOptions) (wts : List Worktree)
    (h : ∀ wt ∈ wts, wt.path ≠ opts.basePath) :
    addWorktree opts none (.ok wts) =
      .error { code := GitErrorCode.COMMAND_FAILED
               message := str "Worktree was created but not found in list at " ++ opts.basePath
               stderr := [] } := by
  have hf : wts.find? (fun wt => wt.path = opts.basePath) = none := by
    rw [List.find?_eq_none]
    intro x hx
    simp [h x hx]
  simp only [addWorktree, hf]

/-- Witness for C4 at a concrete empty re-listing. -/
theorem addWorktree_missing_path_witness :
    addWorktree ⟨str "/p", str "b", none, true⟩ none (.ok []) =
      .error { code := GitErrorCode.COMMAND_FAILED
               message := str "Worktree was created but not found in list at " ++ str "/p"
               stderr := [] } :=
  addWorktree_missing_path ⟨str "/p", str "b", none, true⟩ []
    (by intro wt hwt; cases hwt)

/-- Definitional shape of the MOVE_SELECTION branch of the reducer. -/
theorem appReducer_moveSelection_eq (s : AppState) (delta : Int) :
    appReducer s (.moveSelection delta) =
      (if s.filteredItems.length = 0 then s
       else
         let next : Int := (s.selectedIndex : Int) + delta
         let next := if next < 0 then ((s.filteredItems.length : Int) - 1) else next
         let next := if ((s.filteredItems.length : Int)) ≤ next then 0 else next
         { s with selectedIndex := next.toNat }) := rfl

/-- C10: on a nonempty flat list, MOVE_SELECTION sets the cursor to
selectedIndex + delta when the sum is within bounds, to length-1 when the sum
is negative, and to 0 when the sum is at least the length; on an empty flat
list it is a no-op. -/
theorem moveSelection_clamp (s : AppState) (delta : Int) :
    (s.filteredItems.length = 0 → appReducer s (.moveSelection delta) = s) ∧
    (0 < s.filteredItems.length → 0 ≤ (s.selectedIndex : Int) + delta →
      (s.selectedIndex : Int) + delta < (s.filteredItems.length : Int) →
      appReducer s (.moveSelection delta) =
        { s with selectedIndex := ((s.selectedIndex : Int) + delta).toNat }) ∧
    (0 < s.filteredItems.length → (s.selectedIndex : Int) + delta < 0 →
      appReducer s (.moveSelection delta) =
        { s with selectedIndex := s.filteredItems.length - 1 }) ∧
    (0 < s.filteredItems.length → (s.filteredItems.length : Int) ≤ (s.selectedIndex : Int) + delta →
      appReducer s (.moveSelection delta) = { s with selectedIndex := 0 }) := by
  rw [appReducer_moveSelection_eq]
  refine ⟨?_, ?_, ?_, ?_⟩
  · intro h
    rw [if_pos h]
  · intro hlen h0 hlt
    rw [if_neg (by omega : ¬s.filteredItems.length = 0)]
    simp only [if_neg (by omega : ¬((s.selectedIndex : Int) + delta < 0)),
      if_neg (by omega : ¬((s.filteredItems.length : Int) ≤ (s.selectedIndex : Int) + delta))]
  · intro hlen hneg
    rw [if_neg (by omega : ¬s.filteredItems.length = 0)]
    simp only [if_pos hneg,
      if_neg (by omega : ¬((s.filteredItems.length : Int) ≤ (s.filteredItems.length : Int) - 1))]
    have h1 : (((s.filteredItems.length : Int)) - 1).toNat = s.filteredItems.length - 1 := by
      omega
    rw [h1]
  · intro hlen hge
    rw [if_neg (by omega : ¬s.filteredItems.length = 0)]
    simp only [if_neg (by omega : ¬((s.selectedIndex : Int) + delta < 0)), if_pos hge]
    rfl

/-- Witness for C10: moving by +5 from index 1 of a 2-item list wraps to 0. -/
theorem moveSelection_clamp_witness :
    appReducer sampleState (.moveSelection 5) = { sampleState with selectedIndex := 0 } :=
  (moveSelection_clamp sampleState 5).2.2.2 (by decide) (by decide)

/-- The JavaScript startsWith model agrees with list-prefix decomposition. -/
theorem hasPrefixCh_iff (p s : Str) : hasPrefixCh p s = true ↔ ∃ r, s = p ++ r := by
  induction p generalizing s with
  | nil =>
    simp [hasPrefixCh]
  | cons x xs ih =>
    cases s with
    | nil =>
      simp [hasPrefixCh]
    | cons c cs =>
      simp only [hasPrefixCh, Bool.and_eq_true, decide_eq_true_eq, ih, List.cons_append,
        List.cons.injEq]
      constructor
      · rintro ⟨rfl, r, rfl⟩
        exact ⟨r, rfl, rfl⟩
      · rintro ⟨r, rfl, rfl⟩
        exact ⟨rfl, r, rfl⟩

/-- The JavaScript includes model agrees with infix decomposition. -/
theorem containsSub_iff (pat s : Str) : containsSub pat s = true ↔ ∃ u v, s = u ++ pat ++ v := by
  induction s with
  | nil =>
    simp only [containsSub, List.isEmpty_iff]
    constructor
    · rintro rfl
      exact ⟨[], [], rfl⟩
    · rintro ⟨u, v, h⟩
      rcases List.append_eq_nil.mp h.symm with ⟨h1, h2⟩
      rcases List.append_eq_nil.mp h1 with ⟨-, h3⟩
      exact h3
  | cons c cs ih =>
    simp only [containsSub, Bool.or_eq_true, hasPrefixCh_iff, ih]
    constructor
    · rintro (⟨r, hr⟩ | ⟨u, v, hv⟩)
      · exact ⟨[], r, by simpa using hr⟩
      · exact ⟨c :: u, v, by simp [hv]⟩
    · rintro ⟨u, v, h⟩
      cases u with
      | nil =>
        left
        exact ⟨v, by simpa using h⟩
      | cons x xs =>
        right
        simp only [List.cons_append, List.cons.injEq] at h
        exact ⟨xs, v, h.2⟩

/-- The source's greedy sequential-character loop decides the subsequence
relation. -/
theorem seqMatch_iff (q t : Str) : seqMatch q t = true ↔ List.Sublist q t := by
  induction t generalizing q with
  | nil =>
    cases q with
    | nil => simp [seqMatch]
    | cons qc qs => simp [seqMatch, List.sublist_nil]
  | cons tc ts ih =>
    cases q with
    | nil => simp [seqMatch, List.nil_sublist]
    | cons qc qs =>
      simp only [seqMatch]
      by_cases h : tc = qc
      · subst h
        rw [if_pos rfl, ih]
        constructor
        · exact fun hs => hs.cons₂ tc
        · intro hs
          cases hs with
          | cons a h' => exact List.sublist_of_cons_sublist h'
          | cons₂ a h' => exact h'
      · rw [if_neg (by simpa using h), ih]
        constructor
        · exact fun hs => hs.cons tc
        · intro hs
          cases hs with
          | cons a h' => exact h'
          | cons₂ a h' => exact absurd rfl h

/-- C6: fuzzyMatch is case-insensitive (it depends only on the lower-cased
strings) and returns the first satisfied tier's score — 1000 for exact
equality, 500 for a prefix, 200 for a substring, 50 for an in-order
subsequence, 0 otherwise — and the complementary upper bounds make the scores
monotonic by tier: any pair at a given tier scores at least as much as any
pair whose first satisfied tier is lower. -/
theorem fuzzyMatch_tiers :
    (∀ q t q2 t2 : Str, lowerStr q = lowerStr q2 → lowerStr t = lowerStr t2 →
      fuzzyMatch q t = fuzzyMatch q2 t2) ∧
    (∀ q t : Str, lowerStr t = lowerStr q → fuzzyMatch q t = 1000) ∧
    (∀ q t : Str, ¬lowerStr t = lowerStr q → (∃ r, lowerStr t = lowerStr q ++ r) →
      fuzzyMatch q t = 500) ∧
    (∀ q t : Str, ¬(∃ r, lowerStr t = lowerStr q ++ r) →
      (∃ u v, lowerStr t = u ++ lowerStr q ++ v) → fuzzyMatch q t = 200) ∧
    (∀ q t : Str, ¬(∃ u v, lowerStr t = u ++ lowerStr q ++ v) →
      List.Sublist (lowerStr q) (lowerStr t) → fuzzyMatch q t = 50) ∧
    (∀ q t : Str, ¬List.Sublist (lowerStr q) (lowerStr t) → fuzzyMatch q t = 0) ∧
    (∀ q t : Str, fuzzyMatch q t ≤ 1000) ∧
    (∀ q t : Str, ¬lowerStr t = lowerStr q → fuzzyMatch q t ≤ 500) ∧
    (∀ q t : Str, ¬(∃ r, lowerStr t = lowerStr q ++ r) → fuzzyMatch q t ≤ 200) ∧
    (∀ q t : Str, ¬(∃ u v, lowerStr t = u ++ lowerStr q ++ v) → fuzzyMatch q t ≤ 50) := by
  have hexact_st : ∀ q t : Str, lowerStr t = lowerStr q → ∃ r, lowerStr t = lowerStr q ++ r :=
    fun q t h => ⟨[], by simp [h]⟩
  have hst_sub : ∀ q t : Str, (∃ r, lowerStr t = lowerStr q ++ r) →
      ∃ u v, lowerStr t = u ++ lowerStr q ++ v :=
    fun q t ⟨r, h⟩ => ⟨[], r, by simp [h]⟩
  have hsub_seq : ∀ q t : Str, (∃ u v, lowerStr t = u ++ lowerStr q ++ v) →
      List.Sublist (lowerStr q) (lowerStr t) := by
    rintro q t ⟨u, v, h⟩
    rw [h, List.append_assoc]
    exact (List.sublist_append_left (lowerStr q) v).trans
      (List.sublist_append_right u (lowerStr q ++ v))
  refine ⟨?_, ?_, ?_, ?_, ?_, ?_, ?_, ?_, ?_, ?_⟩
  · intro q t q2 t2 hq ht
    simp only [fuzzyMatch, hq, ht]
  · intro q t h
    simp only [fuzzyMatch, if_pos h]
  · intro q t hne hpre
    simp only [fuzzyMatch, if_neg hne, if_pos ((hasPrefixCh_iff _ _).mpr hpre)]
  · intro q t hnpre hsub
    have hne : ¬lowerStr t = lowerStr q := fun h => hnpre (hexact_st q t h)
    simp only [fuzzyMatch, if_neg hne,
      if_neg (fun h => hnpre ((hasPrefixCh_iff _ _).mp h)),
      if_pos ((containsSub_iff _ _).mpr hsub)]
  · intro q t hnsub hseq
    have hnpre : ¬(∃ r, lowerStr t = lowerStr q ++ r) := fun h => hnsub (hst_sub q t h)
    have hne : ¬lowerStr t = lowerStr q := fun h => hnpre (hexact_st q t h)
    simp only [fuzzyMatch, if_neg hne,
      if_neg (fun h => hnpre ((hasPrefixCh_iff _ _).mp h)),
      if_neg (fun h => hnsub ((containsSub_iff _ _).mp h)),
      if_pos ((seqMatch_iff _ _).mpr hseq)]
  · intro q t hnseq
    have hnsub : ¬(∃ u v, lowerStr t = u ++ lowerStr q ++ v) := fun h => hnseq (hsub_seq q t h)
    have hnpre : ¬(∃ r, lowerStr t = lowerStr q ++ r) := fun h => hnsub (hst_sub q t h)
    have hne : ¬lowerStr t = lowerStr q := fun h => hnpre (hexact_st q t h)
    simp only [fuzzyMatch, if_neg hne,
      if_neg (fun h => hnpre ((hasPrefixCh_iff _ _).mp h)),
      if_neg (fun h => hnsub ((containsSub_iff _ _).mp h)),
      if_neg (fun h => hnseq ((seqMatch_iff _ _).mp h))]
  · intro q t
    simp only [fuzzyMatch]
    split_ifs <;> omega
  · intro q t hne
    simp only [fuzzyMatch, if_neg hne]
    split_ifs <;> omega
  · intro q t hnpre
    have hne : ¬lowerStr t = lowerStr q := fun h => hnpre (hexact_st q t h)
    simp only [fuzzyMatch, if_neg hne,
      if_neg (fun h => hnpre ((hasPrefixCh_iff _ _).mp h))]
    split_ifs <;> omega
  · intro q t hnsub
    have hnpre : ¬(∃ r, lowerStr t = lowerStr q ++ r) := fun h => hnsub (hst_sub q t h)
    have hne : ¬lowerStr t = lowerStr q := fun h => hnpre (hexact_st q t h)
    simp only [fuzzyMatch, if_neg hne,
      if_neg (fun h => hnpre ((hasPrefixCh_iff _ _).mp h)),
      if_neg (fun h => hnsub ((containsSub_iff _ _).mp h))]
    split_ifs <;> omega

/-- Witness for C6: the prefix tier at a concrete pair scores exactly 500. -/
theorem fuzzyMatch_tiers_witness : fuzzyMatch (str "au") (str "AUTH") = 500 :=
  fuzzyMatch_tiers.2.2.1 (str "au") (str "AUTH") (by decide) ⟨str "th", by decide⟩

/-- find? skips a front segment on which the predicate is false. -/
theorem find?_append_none {α : Type} (p : α → Bool) (l₁ l₂ : List α)
    (h : ∀ x ∈ l₁, p x = false) : (l₁ ++ l₂).find? p = l₂.find? p := by
  induction l₁ with
  | nil => rfl
  | cons a l ih =>
    rw [List.cons_append, List.find?_cons_of_neg _ (by simp [h a (by simp)]),
      ih (fun x hx => h x (by simp [hx]))]

/-- C9: loadProject falls back to an empty worktree collection when listing
fails rather than propagating the error, and the project's name is the
basename of the main-flagged worktree's path — falling back to the input path
as the main worktree when no worktree is flagged main. -/
theorem loadProject_fallback :
    (∀ (path g : Str) (e : GitError),
      loadProject path (some g) (.error e) =
        some { name := basename path, gitDir := g, mainWorktree := path, worktrees := [] }) ∧
    (∀ (path g : Str) (wts : List Worktree) (p : Project),
      loadProject path (some g) (.ok wts) = some p →
      p.worktrees = wts ∧
      ((∀ wt ∈ wts, wt.isMain = false) →
        p.name = basename path ∧ p.mainWorktree = path) ∧
      (∀ (pre : List Worktree) (wt : Worktree) (suf : List Worktree),
        wts = pre ++ wt :: suf → (∀ w ∈ pre, w.isMain = false) → wt.isMain = true →
        p.name = basename wt.path ∧ p.mainWorktree = wt.path)) := by
  constructor
  · intro path g e
    rfl
  · intro path g wts p hp
    simp only [loadProject, Option.some.injEq] at hp
    subst hp
    refine ⟨rfl, ?_, ?_⟩
    · intro hall
      have hf : wts.find? (fun wt => wt.isMain) = none := by
        rw [List.find?_eq_none]
        intro x hx
        simp [hall x hx]
      simp [hf]
    · intro pre wt suf hdec hpre hmain
      subst hdec
      have hf : (pre ++ wt :: suf).find? (fun wt => wt.isMain) = some wt := by
        rw [find?_append_none _ pre _ hpre, List.find?_cons_of_pos _ hmain]
      simp [hf]

/-- Witness for C9: a listing with a single main worktree names the project
after that worktree's basename. -/
theorem loadProject_fallback_witness :
    sampleLoaded.name = basename sampleMainWt.path ∧
      sampleLoaded.mainWorktree = sampleMainWt.path :=
  (loadProject_fallback.2 (str "/repo") (str "/g") [sampleMainWt] sampleLoaded
      (by decide)).2.2 [] sampleMainWt [] rfl (by intro w hw; cases hw) (by decide)

/-- Renaming an entry's project never changes its git directory. -/
theorem rename_gitDir (name : Option Str) (project : Project) :
    (match name with
     | some n => if n.isEmpty then project else { project with name := n }
     | none => project).gitDir = project.gitDir := by
  cases name with
  | none => rfl
  | some n => by_cases hn : n.isEmpty <;> simp [hn]

/-- The discovery loop keeps git directories pairwise distinct, given that the
accumulator is distinct and covered by the seen set. -/
theorem discoverLoop_pairwise (es : List (Option Str × Option Project)) :
    ∀ (seen : List Str) (acc : List Project),
    (∀ p ∈ acc, p.gitDir ∈ seen) →
    acc.Pairwise (fun a b => a.gitDir ≠ b.gitDir) →
    (discoverLoop seen acc es).Pairwise (fun a b => a.gitDir ≠ b.gitDir) := by
  induction es with
  | nil =>
    intro seen acc hsub hpw
    exact hpw
  | cons e rest ih =>
    intro seen acc hsub hpw
    obtain ⟨name, proj?⟩ := e
    cases proj? with
    | none => exact ih seen acc hsub hpw
    | some project =>
      simp only [discoverLoop]
      by_cases hc : seen.contains project.gitDir
      · rw [if_pos hc]
        exact ih seen acc hsub hpw
      · rw [if_neg hc]
        have hnmem : project.gitDir ∉ seen := by simpa using hc
        apply ih
        · intro p hp
          rcases List.mem_append.mp hp with h | h
          · exact List.mem_cons_of_mem _ (hsub p h)
          · have : p = _ := List.mem_singleton.mp h
            subst this
            rw [rename_gitDir]
            exact List.mem_cons_self _ _
        · rw [List.pairwise_append]
          refine ⟨hpw, List.pairwise_singleton _ _, ?_⟩
          intro a ha b hb
          have : b = _ := List.mem_singleton.mp hb
          subst this
          rw [rename_gitDir]
          intro hab
          exact hnmem (hab ▸ hsub a ha)

/-- Once a git directory is in the seen set, the projects the loop returns
with that git directory are exactly those already in the accumulator. -/
theorem discoverLoop_frozen (P : Project → Prop) (g : Str)
    (es : List (Option Str × Option Project)) :
    ∀ (seen : List Str) (acc : List Project),
    g ∈ seen →
    (∀ r ∈ acc, r.gitDir = g → P r) →
    ∀ r ∈ discoverLoop seen acc es, r.gitDir = g → P r := by
  induction es with
  | nil =>
    intro seen acc _ hacc
    exact hacc
  | cons e rest ih =>
    intro seen acc hg hacc
    obtain ⟨name, proj?⟩ := e
    cases proj? with
    | none => exact ih seen acc hg hacc
    | some project =>
      simp only [discoverLoop]
      by_cases hc : seen.contains project.gitDir
      · rw [if_pos hc]
        exact ih seen acc hg hacc
      · rw [if_neg hc]
        have hnmem : project.gitDir ∉ seen := by simpa using hc
        apply ih
        · exact List.mem_cons_of_mem _ hg
        · intro r hr hrg
          rcases List.mem_append.mp hr with h | h
          · exact hacc r h hrg
          · have : r = _ := List.mem_singleton.mp h
            subst this
            rw [rename_gitDir] at hrg
            exact absurd (hrg ▸ hg) hnmem

/-- The first entry that loads a not-yet-seen git directory determines the
name of that git directory's project in the loop's output. -/
theorem discoverLoop_first_name (g : Str) (n₁ : Str) (p₁ : Project)
    (hg : p₁.gitDir = g) (hn : ¬n₁.isEmpty = true)
    (e₁ : List (Option Str × Option Project)) :
    ∀ (seen : List Str) (acc : List Project)
      (e₃ : List (Option Str × Option Project)),
    g ∉ seen →
    (∀ r ∈ acc, r.gitDir ≠ g) →
    (∀ x ∈ e₁, ∀ q, x.2 = some q → q.gitDir ≠ g) →
    ∀ r ∈ discoverLoop seen acc (e₁ ++ (some n₁, some p₁) :: e₃), r.gitDir = g → r.name = n₁ := by
  induction e₁ with
  | nil =>
    intro seen acc e₃ hseen hacc _
    rw [List.nil_append]
    simp only [discoverLoop]
    rw [if_neg (by simpa using (hg ▸ hseen : p₁.gitDir ∉ seen))]
    simp only [if_neg hn]
    apply discoverLoop_frozen (fun r => r.name = n₁) g e₃
    · simp [hg]
    · intro r hr hrg
      rcases List.mem_append.mp hr with h | h
      · exact absurd hrg (hacc r h)
      · have : r = _ := List.mem_singleton.mp h
        subst this
        rfl
  | cons x e₁' ih =>
    intro seen acc e₃ hseen hacc he₁
    obtain ⟨name, proj?⟩ := x
    rw [List.cons_append]
    cases proj? with
    | none =>
      show ∀ r ∈ discoverLoop seen acc _, r.gitDir = g → r.name = n₁
      exact ih seen acc e₃ hseen hacc
        (fun y hy q hq => he₁ y (List.mem_cons_of_mem _ hy) q hq)
    | some q =>
      have hq : q.gitDir ≠ g := he₁ (name, some q) (List.mem_cons_self _ _) q rfl
      simp only [discoverLoop]
      by_cases hc : seen.contains q.gitDir
      · rw [if_pos hc]
        exact ih seen acc e₃ hseen hacc
          (fun y hy r hr => he₁ y (List.mem_cons_of_mem _ hy) r hr)
      · rw [if_neg hc]
        apply ih
        · intro hmem
          rcases List.mem_cons.mp hmem with h | h
          · rw [rename_gitDir] at h
            exact hq h.symm
          · exact hseen h
        · intro r hr
          rcases List.mem_append.mp hr with h | h
          · exact hacc r h
          · have : r = _ := List.mem_singleton.mp h
            subst this
            rw [rename_gitDir]
            exact hq
        · exact fun y hy r hr => he₁ y (List.mem_cons_of_mem _ hy) r hr

/-- C5: discoverProjects never returns two projects sharing a git-directory
path, and when a later entry resolves to the same repository as an earlier
one, the single resulting project carries the earliest source's (truthy)
configured name — current directory first, then entries in declaration
order. -/
theorem discoverProjects_dedup :
    (∀ (cwdP : Option Project) (entries : List (Option Str × Option Project)),
      (discoverProjects cwdP entries).Pairwise (fun a b => a.gitDir ≠ b.gitDir)) ∧
    (∀ (cwdP : Option Project) (n₁ n₂ : Str) (p₁ p₂ : Project)
       (e₁ e₂ e₃ : List (Option Str × Option Project)),
      p₂.gitDir = p₁.gitDir →
      n₁ ≠ [] →
      (∀ q, cwdP = some q → q.gitDir ≠ p₁.gitDir) →
      (∀ x ∈ e₁, ∀ q, x.2 = some q → q.gitDir ≠ p₁.gitDir) →
      ∀ r ∈ discoverProjects cwdP
        (e₁ ++ (some n₁, some p₁) :: e₂ ++ (some n₂, some p₂) :: e₃),
        r.gitDir = p₁.gitDir → r.name = n₁) := by
  constructor
  · intro cwdP entries
    cases cwdP with
    | none =>
      exact discoverLoop_pairwise entries [] [] (by intro p hp; cases hp) (by constructor)
    | some p =>
      exact discoverLoop_pairwise entries [p.gitDir] [p]
        (by intro q hq; rw [List.mem_singleton.mp hq]; exact List.mem_singleton.mpr rfl)
        (List.pairwise_singleton _ _)
  · intro cwdP n₁ n₂ p₁ p₂ e₁ e₂ e₃ _ hn₁ hcwd he₁
    have hn : ¬n₁.isEmpty = true := by simpa [List.isEmpty_iff] using hn₁
    have hmain := discoverLoop_first_name p₁.gitDir n₁ p₁ rfl hn e₁
    cases cwdP with
    | none =>
      intro r hr
      exact hmain [] [] (e₂ ++ (some n₂, some p₂) :: e₃) (by intro h; cases h)
        (by intro q hq; cases hq) he₁ r (by simpa [List.append_assoc] using hr)
    | some p =>
      intro r hr
      have hpg : p.gitDir ≠ p₁.gitDir := hcwd p rfl
      exact hmain [p.gitDir] [p] (e₂ ++ (some n₂, some p₂) :: e₃)
        (by intro h; exact hpg (List.mem_singleton.mp h).symm)
        (by intro q hq; rw [List.mem_singleton.mp hq]; exact hpg)
        he₁ r (by simpa [List.append_assoc] using hr)

/-- Witness for C5: with two entries resolving to the same repository, the
result is deduplicated and keeps the first entry's configured name. -/
theorem discoverProjects_dedup_witness :
    ({ name := str "alpha", gitDir := str "/g", mainWorktree := str "/w"
       worktrees := [sampleWorktree] } : Project).name = str "alpha" :=
  discoverProjects_dedup.2 none (str "alpha") (str "beta") sampleProject
    { sampleProject with name := str "other" } [] [] []
    rfl (by decide) (by intro q hq; cases hq) (by intro x hx; cases hx)
    { name := str "alpha", gitDir := str "/g", mainWorktree := str "/w"
      worktrees := [sampleWorktree] }
    (by decide) rfl

/-- head? of an append with a nonempty left part. -/
theorem head?_append_left (u v : Str) (h : u ≠ []) : (u ++ v).head? = u.head? := by
  cases u with
  | nil => exact absurd rfl h
  | cons c cs => rfl

/-- reverse-head? of an append with a nonempty right part. -/
theorem rev_head?_append_right (u v : Str) (h : v ≠ []) :
    (u ++ v).reverse.head? = v.reverse.head? := by
  rw [List.reverse_append]
  exact head?_append_left _ _ (by simpa using h)

/-- dropWhile is the identity when the head does not satisfy the predicate. -/
theorem dropWhile_eq_self_of_head (s : Str)
    (h : ∀ c, s.head? = some c → isWS c = false) : s.dropWhile isWS = s := by
  cases s with
  | nil => rfl
  | cons c cs =>
    rw [List.dropWhile_cons, h c rfl]
    simp

/-- trim is the identity on strings with non-whitespace first and last
characters. -/
theorem trimChars_eq_self (s : Str)
    (h1 : ∀ c, s.head? = some c → isWS c = false)
    (h2 : ∀ c, s.reverse.head? = some c → isWS c = false) : trimChars s = s := by
  unfold trimChars
  rw [dropWhile_eq_self_of_head s h1, dropWhile_eq_self_of_head s.reverse h2,
    List.reverse_reverse]

/-- splitLines of a newline-free string is that string alone. -/
theorem splitLines_no_nl (s : Str) (h : ∀ c ∈ s, ¬c = '\n') : splitLines s = [s] := by
  induction s with
  | nil => rfl
  | cons c cs ih =>
    simp only [splitLines]
    rw [if_neg (by simpa using h c (by simp)),
      ih (fun x hx => h x (by simp [hx]))]

/-- splitLines splits off a leading newline-free segment. -/
theorem splitLines_append_nl (x r : Str) (hx : ∀ c ∈ x, ¬c = '\n') :
    splitLines (x ++ '\n' :: r) = x :: splitLines r := by
  induction x with
  | nil =>
    simp [splitLines]
  | cons c cs ih =>
    rw [List.cons_append]
    simp only [splitLines]
    rw [if_neg (by simpa using hx c (by simp)),
      ih (fun y hy => hx y (by simp [hy]))]

/-- splitLines inverts joining newline-free lines with newlines. -/
theorem splitLines_joinSep (ls : List Str) (hne : ls ≠ [])
    (h : ∀ l ∈ ls, ∀ c ∈ l, ¬c = '\n') : splitLines (joinSep (str "\n") ls) = ls := by
  induction ls with
  | nil => exact absurd rfl hne
  | cons x ls ih =>
    cases ls with
    | nil => exact splitLines_no_nl x (h x (by simp))
    | cons y ys =>
      show splitLines (x ++ str "\n" ++ joinSep (str "\n") (y :: ys)) = _
      rw [List.append_assoc]
      show splitLines (x ++ '\n' :: joinSep (str "\n") (y :: ys)) = _
      rw [splitLines_append_nl x _ (h x (by simp)),
        ih (by simp) (fun l hl => h l (by simp [hl]))]

/-- splitBlocks of a string without consecutive newlines is that string. -/
theorem splitBlocks_noDouble (s : Str) (h : noDoubleNL s = true) : splitBlocks s = [s] := by
  induction s with
  | nil => rfl
  | cons c cs ih =>
    cases cs with
    | nil => rfl
    | cons c' cs' =>
      simp only [splitBlocks]
      have hnd : ¬(c = '\n' ∧ c' = '\n') := by
        simp only [noDoubleNL, Bool.and_eq_true, Bool.not_eq_true'] at h
        intro hc
        rcases hc with ⟨rfl, rfl⟩
        simp at h
      rw [if_neg hnd]
      have h' : noDoubleNL (c' :: cs') = true := by
        simp only [noDoubleNL, Bool.and_eq_true] at h
        exact h.2
      rw [ih h']

/-- splitBlocks splits off a leading segment before a double newline,
provided the segment has no consecutive newlines and does not end in one. -/
theorem splitBlocks_step (a b : Char) (t : Str) (hab : ¬(a = '\n' ∧ b = '\n')) :
    splitBlocks (a :: b :: t) =
      (match splitBlocks (b :: t) with
       | [] => [[a]]
       | l :: ls => (a :: l) :: ls) := by
  simp only [splitBlocks]
  rw [if_neg hab]

theorem splitBlocks_append_sep (s r : Str) (h : noDoubleNL s = true)
    (hlast : ∀ c, s.reverse.head? = some c → ¬c = '\n') :
    splitBlocks (s ++ '\n' :: '\n' :: r) = s :: splitBlocks r := by
  induction s with
  | nil =>
    simp [splitBlocks]
  | cons c cs ih =>
    cases cs with
    | nil =>
      have hc : ¬c = '\n' := hlast c (by simp)
      rw [List.singleton_append,
        splitBlocks_step c '\n' ('\n' :: r) (by simp [hc]),
        show splitBlocks ('\n' :: '\n' :: r) = [] :: splitBlocks r from by
          simp [splitBlocks]]
    | cons c' cs' =>
      have hnd : ¬(c = '\n' ∧ c' = '\n') := by
        simp only [noDoubleNL, Bool.and_eq_true, Bool.not_eq_true'] at h
        intro hc
        rcases hc with ⟨rfl, rfl⟩
        simp at h
      have h' : noDoubleNL (c' :: cs') = true := by
        simp only [noDoubleNL, Bool.and_eq_true] at h
        exact h.2
      have hlast' : ∀ x, (c' :: cs').reverse.head? = some x → ¬x = '\n' := by
        intro x hx
        apply hlast x
        rw [show (c :: c' :: cs').reverse = (c' :: cs').reverse ++ [c] from by simp]
        rw [head?_append_left _ _ (by simp)]
        exact hx
      have hrec := ih h' hlast'
      rw [List.cons_append] at hrec
      rw [List.cons_append, List.cons_append,
        splitBlocks_step c c' (cs' ++ '\n' :: '\n' :: r) hnd, hrec]

/-- splitBlocks inverts joining blocks with blank lines, provided each block
has no consecutive newlines and does not end in a newline. -/
theorem splitBlocks_joinSep (ss : List Str) (hne : ss ≠ [])
    (h : ∀ s ∈ ss, noDoubleNL s = true ∧ ∀ c, s.reverse.head? = some c → ¬c = '\n') :
    splitBlocks (joinSep (str "\n\n") ss) = ss := by
  induction ss with
  | nil => exact absurd rfl hne
  | cons x ss ih =>
    cases ss with
    | nil => exact splitBlocks_noDouble x (h x (by simp)).1
    | cons y ys =>
      show splitBlocks (x ++ str "\n\n" ++ joinSep (str "\n\n") (y :: ys)) = _
      rw [List.append_assoc]
      show splitBlocks (x ++ '\n' :: '\n' :: joinSep (str "\n\n") (y :: ys)) = _
      rw [splitBlocks_append_sep x _ (h x (by simp)).1 (h x (by simp)).2,
        ih (by simp) (fun l hl => h l (by simp [hl]))]

/-- Characters that are not newlines keep noDoubleNL when prepended. -/
theorem noDoubleNL_cons (c : Char) (w : Str) (hc : ¬c = '\n')
    (hw : noDoubleNL w = true) : noDoubleNL (c :: w) = true := by
  cases w with
  | nil => rfl
  | cons d ws =>
    simp only [noDoubleNL, Bool.and_eq_true]
    exact ⟨by simp [hc], hw⟩

/-- A newline-free string has no consecutive newlines. -/
theorem noDoubleNL_of_no_nl (s : Str) (h : ∀ c ∈ s, ¬c = '\n') : noDoubleNL s = true := by
  induction s with
  | nil => rfl
  | cons c cs ih =>
    exact noDoubleNL_cons c cs (h c (by simp)) (ih (fun x hx => h x (by simp [hx])))

/-- Prepending a newline-free string keeps noDoubleNL. -/
theorem noDoubleNL_append (x r : Str) (hx : ∀ c ∈ x, ¬c = '\n')
    (hr : noDoubleNL r = true) : noDoubleNL (x ++ r) = true := by
  induction x with
  | nil => exact hr
  | cons c cs ih =>
    rw [List.cons_append]
    exact noDoubleNL_cons c _ (hx c (by simp)) (ih (fun y hy => hx y (by simp [hy])))

/-- head? of a nonempty-headed join. -/
theorem joinSep_head? (sep : Str) (x : Str) (ys : List Str) (hx : x ≠ []) :
    (joinSep sep (x :: ys)).head? = x.head? := by
  cases ys with
  | nil => rfl
  | cons y ys' =>
    show (x ++ sep ++ joinSep sep (y :: ys')).head? = x.head?
    rw [List.append_assoc]
    exact head?_append_left _ _ hx

/-- A join of lines whose first line is nonempty is nonempty. -/
theorem joinSep_ne_nil (sep : Str) (x : Str) (ys : List Str) (hx : x ≠ []) :
    joinSep sep (x :: ys) ≠ [] := by
  intro h
  have := joinSep_head? sep x ys hx
  rw [h] at this
  cases x with
  | nil => exact absurd rfl hx
  | cons c cs => simp at this

/-- The last character of a join of nonempty lines is the last character of
one of the lines. -/
theorem joinSep_rev_head_mem (sep : Str) (x : Str) (ys : List Str)
    (h : ∀ l ∈ x :: ys, l ≠ []) :
    ∃ l, l ∈ x :: ys ∧ (joinSep sep (x :: ys)).reverse.head? = l.reverse.head? := by
  induction ys generalizing x with
  | nil => exact ⟨x, by simp, rfl⟩
  | cons y ys' ih =>
    obtain ⟨l, hl, heq⟩ := ih y (fun l hl => h l (by
      rcases List.mem_cons.mp hl with h' | h'
      · simp [h']
      · simp [h']))
    refine ⟨l, by
      rcases List.mem_cons.mp hl with h' | h'
      · simp [h']
      · simp [h'], ?_⟩
    show (x ++ sep ++ joinSep sep (y :: ys')).reverse.head? = l.reverse.head?
    rw [List.append_assoc,
      rev_head?_append_right _ _ (by
        intro hj
        rcases List.append_eq_nil.mp hj with ⟨-, hj2⟩
        exact joinSep_ne_nil sep y ys' (h y (by simp)) hj2),
      rev_head?_append_right _ _ (joinSep_ne_nil sep y ys' (h y (by simp)))]
    exact heq

/-- The join of good lines has no consecutive newlines. -/
theorem noDoubleNL_joinSep (b : List Str)
    (h : ∀ l ∈ b, l ≠ [] ∧ ∀ c ∈ l, ¬c = '\n') :
    noDoubleNL (joinSep (str "\n") b) = true := by
  induction b with
  | nil => rfl
  | cons x bs ih =>
    cases bs with
    | nil => exact noDoubleNL_of_no_nl x (h x (by simp)).2
    | cons y ys =>
      show noDoubleNL (x ++ str "\n" ++ joinSep (str "\n") (y :: ys)) = true
      rw [List.append_assoc]
      apply noDoubleNL_append x _ (h x (by simp)).2
      have hy : y ≠ [] := (h y (by simp)).1
      have hj : noDoubleNL (joinSep (str "\n") (y :: ys)) = true :=
        ih (fun l hl => h l (by simp [List.mem_cons.mp hl]))
      obtain ⟨c, hc⟩ : ∃ c, (joinSep (str "\n") (y :: ys)).head? = some c := by
        rw [joinSep_head? _ y ys hy]
        cases y with
        | nil => exact absurd rfl hy
        | cons d ds => exact ⟨d, rfl⟩
      have hcnl : ¬c = '\n' := by
        rw [joinSep_head? _ y ys hy] at hc
        cases y with
        | nil => exact absurd rfl hy
        | cons d ds =>
          have : d = c := by simpa using hc
          subst this
          exact (h (d :: ds) (by simp)).2 d (by simp)
      cases hj' : joinSep (str "\n") (y :: ys) with
      | nil => rfl
      | cons d ds =>
        rw [hj'] at hc hj
        have hd : d = c := by simpa using hc
        subst hd
        show noDoubleNL ('\n' :: d :: ds) = true
        simp only [noDoubleNL, Bool.and_eq_true]
        exact ⟨by simp [hcnl], hj⟩

/-- A good line is nonempty. -/
theorem goodLine_ne_nil (l : Str) (h : goodLineB l = true) : l ≠ [] := by
  intro hl
  subst hl
  simp [goodLineB] at h

/-- A good line contains no newline. -/
theorem goodLine_no_nl (l : Str) (h : goodLineB l = true) : ∀ c ∈ l, ¬c = '\n' := by
  simp only [goodLineB, Bool.and_eq_true, List.all_eq_true] at h
  intro c hc
  have := h.1.1.2 c hc
  simpa using this

/-- A good line starts with a non-whitespace character. -/
theorem goodLine_head (l : Str) (h : goodLineB l = true) :
    ∀ c, l.head? = some c → isWS c = false := by
  intro c hc
  cases l with
  | nil => simp at hc
  | cons d ds =>
    have hd : d = c := by simpa using hc
    subst hd
    simp only [goodLineB, Bool.and_eq_true, Bool.not_eq_true'] at h
    exact h.1.2

/-- A good line ends with a non-whitespace character. -/
theorem goodLine_last (l : Str) (h : goodLineB l = true) :
    ∀ c, l.reverse.head? = some c → isWS c = false := by
  intro c hc
  simp only [goodLineB, Bool.and_eq_true, Bool.not_eq_true'] at h
  have h2 := h.2
  cases hrev : l.reverse with
  | nil =>
    rw [hrev] at hc
    simp at hc
  | cons d ds =>
    rw [hrev] at hc h2
    have hd : d = c := by simpa using hc
    subst hd
    simpa using h2

/-- A list with predicate-count one decomposes around its unique witness. -/
theorem countP_one_decomp {α : Type} (p : α → Bool) (l : List α)
    (h : l.countP p = 1) :
    ∃ u x v, l = u ++ x :: v ∧ p x = true ∧
      (∀ y ∈ u, p y = false) ∧ (∀ y ∈ v, p y = false) := by
  induction l with
  | nil => simp [List.countP_nil] at h
  | cons a l ih =>
    rw [List.countP_cons] at h
    by_cases hpa : p a = true
    · have hl : l.countP p = 0 := by
        simp only [hpa, if_true] at h
        omega
      refine ⟨[], a, l, by simp, hpa, by simp, ?_⟩
      intro y hy
      have := List.countP_eq_zero.mp hl y hy
      simpa using this
    · rw [Bool.not_eq_true] at hpa
      have hl : l.countP p = 1 := by
        simpa [hpa] using h
      obtain ⟨u, x, v, hdec, hx, hu, hv⟩ := ih hl
      exact ⟨a :: u, x, v, by simp [hdec], hx,
        fun y hy => by
          rcases List.mem_cons.mp hy with h' | h'
          · subst h'; simpa using hpa
          · exact hu y h', hv⟩

/-- Lines that are not worktree lines do not change the path field. -/
theorem parseLine_path_skip (f : BlockFields) (l : Str) (h : wkLineB l = false) :
    (parseLine f l).path = f.path := by
  simp only [parseLine, wkLineB] at h ⊢
  rw [h]
  simp only [Bool.false_eq_true, if_false]
  split_ifs <;> rfl

/-- A worktree line sets the path field to its payload. -/
theorem parseLine_path_wk (f : BlockFields) (l : Str) (h : wkLineB l = true) :
    (parseLine f l).path = l.drop (str "worktree ").length := by
  simp only [parseLine, wkLineB] at h ⊢
  rw [h]
  rfl

/-- Lines that are not branch lines keep an absent branch absent. -/
theorem parseLine_branch_skip (f : BlockFields) (l : Str)
    (hf : f.branch = none) (h : hasPrefixCh (str "branch ") l = false) :
    (parseLine f l).branch = none := by
  simp only [parseLine]
  split_ifs with h1 h2 h3 h4 h5 h6 h7
  · exact hf
  · exact hf
  · simp [h] at h3
  · exact hf
  · exact hf
  · exact hf
  · rfl
  · exact hf

/-- Folding over worktree-line-free lines keeps the path field. -/
theorem foldl_parseLine_path_skip (ls : List Str) (f : BlockFields)
    (h : ∀ l ∈ ls, wkLineB l = false) :
    (ls.foldl parseLine f).path = f.path := by
  induction ls generalizing f with
  | nil => rfl
  | cons l ls ih =>
    rw [List.foldl_cons, ih _ (fun x hx => h x (by simp [hx])),
      parseLine_path_skip f l (h l (by simp))]

/-- Folding over branch-line-free lines keeps an absent branch absent. -/
theorem foldl_parseLine_branch_skip (ls : List Str) (f : BlockFields)
    (hf : f.branch = none) (h : ∀ l ∈ ls, hasPrefixCh (str "branch ") l = false) :
    (ls.foldl parseLine f).branch = none := by
  induction ls generalizing f with
  | nil => exact hf
  | cons l ls ih =>
    rw [List.foldl_cons]
    exact ih _ (parseLine_branch_skip f l hf (h l (by simp)))
      (fun x hx => h x (by simp [hx]))

/-- The folded path of a block with a unique worktree line is that line's
payload. -/
theorem foldl_parseLine_path (u : List Str) (x : Str) (v : List Str)
    (f : BlockFields) (hx : wkLineB x = true) (hv : ∀ l ∈ v, wkLineB l = false) :
    ((u ++ x :: v).foldl parseLine f).path = x.drop (str "worktree ").length := by
  rw [List.foldl_append, List.foldl_cons,
    foldl_parseLine_path_skip v _ hv, parseLine_path_wk _ x hx]

/-- The record built for a well-formed block carries the block's worktree
path. -/
theorem blockRecord_path (n : Nat) (b : List Str) (h : wfBlockB b = true) :
    (blockRecord n b).path = blockPath b := by
  simp only [wfBlockB, Bool.and_eq_true, beq_iff_eq] at h
  obtain ⟨⟨⟨-, -⟩, hcount⟩, -⟩ := h
  obtain ⟨u, x, v, hdec, hx, hu, hv⟩ := countP_one_decomp wkLineB b hcount
  subst hdec
  rw [show blockPath (u ++ x :: v) = x.drop (str "worktree ").length from by
    unfold blockPath
    rw [find?_append_none _ u _ hu, List.find?_cons_of_pos _ hx]]
  simp only [blockRecord]
  exact foldl_parseLine_path u x v initFields hx hv

/-- The folded path of a well-formed block is nonempty. -/
theorem blockRecord_path_ne (n : Nat) (b : List Str) (h : wfBlockB b = true) :
    ((blockRecord n b).path).isEmpty = false := by
  rw [blockRecord_path n b h]
  simp only [wfBlockB, Bool.and_eq_true, beq_iff_eq, List.all_eq_true] at h
  obtain ⟨⟨⟨-, -⟩, hcount⟩, hpay⟩ := h
  obtain ⟨u, x, v, hdec, hx, hu, hv⟩ := countP_one_decomp wkLineB b hcount
  have hxmem : x ∈ b := by rw [hdec]; simp
  have := hpay x hxmem
  rw [hx] at this
  simp only [Bool.not_true, Bool.false_or, Bool.not_eq_true'] at this
  rw [show blockPath b = x.drop (str "worktree ").length from by
    rw [hdec]
    unfold blockPath
    rw [find?_append_none _ u _ hu, List.find?_cons_of_pos _ hx]]
  exact this

/-- Processing the encoded text of one well-formed block appends exactly one
record. -/
theorem processBlock_wf (acc : List Worktree) (b : List Str) (hwf : wfBlockB b = true) :
    processBlock acc (joinSep (str "\n") b) = acc ++ [blockRecord acc.length b] := by
  have h := hwf
  simp only [wfBlockB, Bool.and_eq_true, List.all_eq_true, Bool.not_eq_true'] at h
  obtain ⟨⟨⟨hbne, hgood⟩, -⟩, -⟩ := h
  cases b with
  | nil => simp at hbne
  | cons bb bs =>
    have hlines_ne : ∀ l ∈ bb :: bs, l ≠ [] := fun l hl => goodLine_ne_nil l (hgood l hl)
    have hno_nl : ∀ l ∈ bb :: bs, ∀ c ∈ l, ¬c = '\n' :=
      fun l hl => goodLine_no_nl l (hgood l hl)
    have hhead : ∀ c, (joinSep (str "\n") (bb :: bs)).head? = some c → isWS c = false := by
      intro c hc
      rw [joinSep_head? _ bb bs (hlines_ne bb (by simp))] at hc
      exact goodLine_head bb (hgood bb (by simp)) c hc
    have hrev : ∀ c, (joinSep (str "\n") (bb :: bs)).reverse.head? = some c →
        isWS c = false := by
      intro c hc
      obtain ⟨l, hl, heq⟩ := joinSep_rev_head_mem (str "\n") bb bs hlines_ne
      rw [heq] at hc
      exact goodLine_last l (hgood l hl) c hc
    have htrim : trimChars (joinSep (str "\n") (bb :: bs)) = joinSep (str "\n") (bb :: bs) :=
      trimChars_eq_self _ hhead hrev
    have hJne : joinSep (str "\n") (bb :: bs) ≠ [] :=
      joinSep_ne_nil _ bb bs (hlines_ne bb (by simp))
    have hsplit : splitLines (joinSep (str "\n") (bb :: bs)) = bb :: bs :=
      splitLines_joinSep _ (by simp) hno_nl
    have hpne : (((bb :: bs).foldl parseLine initFields).path).isEmpty = false :=
      blockRecord_path_ne acc.length (bb :: bs) hwf
    have hpne' : ¬((((bb :: bs).foldl parseLine initFields).path).isEmpty = true) := by
      rw [hpne]
      simp
    simp only [processBlock]
    rw [htrim, hsplit]
    rw [if_neg (by simp [List.isEmpty_iff, hJne]), if_neg hpne']
    rfl

/-- Folding processBlock over encoded well-formed blocks appends one record
per block, in order. -/
theorem foldl_processBlock_records (bs : List (List Str)) :
    ∀ acc : List Worktree, (∀ b ∈ bs, wfBlockB b = true) →
    ((bs.map (joinSep (str "\n"))).foldl processBlock acc) = acc ++ recordsFrom acc.length bs := by
  induction bs with
  | nil =>
    intro acc _
    simp [recordsFrom]
  | cons b bs ih =>
    intro acc h
    rw [List.map_cons, List.foldl_cons, processBlock_wf acc b (h b (by simp)),
      ih _ (fun x hx => h x (by simp [hx]))]
    simp [recordsFrom, List.append_assoc]

/-- The last character of an encoded nonempty block list is the last
character of one of its lines. -/
theorem encode_rev_head_line (b : List Str) (bs : List (List Str))
    (hlne : ∀ x ∈ b :: bs, ∃ xx xs, x = xx :: xs ∧ ∀ l ∈ x, l ≠ []) :
    ∃ x ∈ b :: bs, ∃ l ∈ x, (encodeBlocks (b :: bs)).reverse.head? = l.reverse.head? := by
  have hJne : ∀ s ∈ (b :: bs).map (joinSep (str "\n")), s ≠ [] := by
    intro s hs
    obtain ⟨x, hx, rfl⟩ := List.mem_map.mp hs
    obtain ⟨xx, xs, rfl, hl⟩ := hlne x hx
    exact joinSep_ne_nil _ xx xs (hl xx (by simp))
  rw [show (b :: bs).map (joinSep (str "\n")) =
      joinSep (str "\n") b :: bs.map (joinSep (str "\n")) from rfl] at hJne
  obtain ⟨s, hs, heq⟩ :=
    joinSep_rev_head_mem (str "\n\n") (joinSep (str "\n") b) (bs.map (joinSep (str "\n")))
      hJne
  have hs' : s ∈ (b :: bs).map (joinSep (str "\n")) := by
    simpa using hs
  obtain ⟨x, hx, rfl⟩ := List.mem_map.mp hs'
  obtain ⟨xx, xs, rfl, hl⟩ := hlne x hx
  obtain ⟨l, hl', heq2⟩ := joinSep_rev_head_mem (str "\n") xx xs hl
  exact ⟨xx :: xs, hx, l, hl', by
    show (joinSep (str "\n\n") ((b :: bs).map (joinSep (str "\n")))).reverse.head? = _
    rw [show (b :: bs).map (joinSep (str "\n")) =
        joinSep (str "\n") b :: bs.map (joinSep (str "\n")) from rfl]
    rw [heq, heq2]⟩

/-- Parsing the encoding of well-formed blocks yields exactly the per-block
records. -/
theorem parsePorcelain_encode (blocks : List (List Str))
    (hwf : blocks.all wfBlockB = true) :
    parsePorcelain (encodeBlocks blocks) = recordsFrom 0 blocks := by
  rw [List.all_eq_true] at hwf
  cases blocks with
  | nil => rfl
  | cons b bs =>
    have hgood : ∀ x ∈ b :: bs, ∀ l ∈ x, goodLineB l = true := by
      intro x hx l hl
      have := hwf x hx
      simp only [wfBlockB, Bool.and_eq_true, List.all_eq_true] at this
      exact this.1.1.2 l hl
    have hx_ne : ∀ x ∈ b :: bs, ∃ xx xs, x = xx :: xs ∧ ∀ l ∈ x, l ≠ [] := by
      intro x hx
      have := hwf x hx
      simp only [wfBlockB, Bool.and_eq_true, List.all_eq_true, Bool.not_eq_true'] at this
      cases x with
      | nil => simp at this
      | cons xx xs =>
        exact ⟨xx, xs, rfl, fun l hl => goodLine_ne_nil l (hgood _ hx l hl)⟩
    have hprops : ∀ s ∈ (b :: bs).map (joinSep (str "\n")),
        noDoubleNL s = true ∧ ∀ c, s.reverse.head? = some c → ¬c = '\n' := by
      intro s hs
      obtain ⟨x, hx, rfl⟩ := List.mem_map.mp hs
      obtain ⟨xx, xs, rfl, hlne⟩ := hx_ne x hx
      refine ⟨noDoubleNL_joinSep _ (fun l hl =>
        ⟨hlne l hl, goodLine_no_nl l (hgood _ hx l hl)⟩), ?_⟩
      intro c hc hcnl
      obtain ⟨l, hl, heq⟩ := joinSep_rev_head_mem (str "\n") xx xs hlne
      rw [heq] at hc
      have := goodLine_last l (hgood _ hx l hl) c hc
      subst hcnl
      simp [isWS] at this
    have hhead : ∀ c, (encodeBlocks (b :: bs)).head? = some c → isWS c = false := by
      intro c hc
      obtain ⟨bb, bls, rfl, hlne⟩ := hx_ne b (by simp)
      have hJbne : joinSep (str "\n") (bb :: bls) ≠ [] :=
        joinSep_ne_nil _ bb bls (hlne bb (by simp))
      rw [show encodeBlocks ((bb :: bls) :: bs) =
          joinSep (str "\n\n")
            (joinSep (str "\n") (bb :: bls) :: bs.map (joinSep (str "\n"))) from rfl,
        joinSep_head? _ _ _ hJbne,
        joinSep_head? _ bb bls (hlne bb (by simp))] at hc
      exact goodLine_head bb
        (hgood (bb :: bls) (List.mem_cons_self _ _) bb (List.mem_cons_self _ _)) c hc
    have hrev : ∀ c, (encodeBlocks (b :: bs)).reverse.head? = some c → isWS c = false := by
      intro c hc
      obtain ⟨x, hx, l, hl, heq⟩ := encode_rev_head_line b bs hx_ne
      rw [heq] at hc
      exact goodLine_last l (hgood x hx l hl) c hc
    have htrim : trimChars (encodeBlocks (b :: bs)) = encodeBlocks (b :: bs) :=
      trimChars_eq_self _ hhead hrev
    have hsb : splitBlocks (encodeBlocks (b :: bs)) = (b :: bs).map (joinSep (str "\n")) :=
      splitBlocks_joinSep _ (by simp) hprops
    show (splitBlocks (trimChars (encodeBlocks (b :: bs)))).foldl processBlock [] = _
    rw [htrim, hsb, foldl_processBlock_records (b :: bs) [] hwf]
    rfl

/-- recordsFrom has one record per block. -/
theorem recordsFrom_length (n : Nat) (bs : List (List Str)) :
    (recordsFrom n bs).length = bs.length := by
  induction bs generalizing n with
  | nil => rfl
  | cons b bs ih => simp [recordsFrom, ih]

/-- Indexing into recordsFrom. -/
theorem recordsFrom_getElem? (bs : List (List Str)) :
    ∀ (n i : Nat) (b : List Str), bs[i]? = some b →
      (recordsFrom n bs)[i]? = some (blockRecord (n + i) b) := by
  induction bs with
  | nil =>
    intro n i b h
    simp at h
  | cons x bs ih =>
    intro n i b h
    cases i with
    | zero =>
      simp only [List.getElem?_cons_zero, Option.some.injEq] at h
      subst h
      simp [recordsFrom]
    | succ j =>
      simp only [List.getElem?_cons_succ] at h
      simp only [recordsFrom, List.getElem?_cons_succ]
      rw [ih (n + 1) j b h]
      have : n + 1 + j = n + (j + 1) := by omega
      rw [this]

/-- C1: for porcelain text consisting of N well-formed blocks joined by blank
lines, the parser returns exactly N records, in block order (the i-th record
carries the i-th block's worktree path), and the first record has its main
flag forced to true. -/
theorem parsePorcelain_wellFormed (blocks : List (List Str))
    (hwf : blocks.all wfBlockB = true) :
    (parsePorcelain (encodeBlocks blocks)).length = blocks.length ∧
    (∀ w, (parsePorcelain (encodeBlocks blocks)).head? = some w → w.isMain = true) ∧
    (∀ (i : Nat) (w : Worktree) (b : List Str),
      (parsePorcelain (encodeBlocks blocks))[i]? = some w → blocks[i]? = some b →
      w.path = blockPath b) := by
  rw [parsePorcelain_encode blocks hwf]
  refine ⟨recordsFrom_length 0 blocks, ?_, ?_⟩
  · intro w hw
    cases blocks with
    | nil => simp [recordsFrom] at hw
    | cons b bs =>
      simp only [recordsFrom, List.head?_cons, Option.some.injEq] at hw
      subst hw
      rfl
  · intro i w b hw hb
    rw [recordsFrom_getElem? blocks 0 i b hb] at hw
    have hwb : blockRecord (0 + i) b = w := Option.some.inj hw
    subst hwb
    apply blockRecord_path
    rw [List.all_eq_true] at hwf
    exact hwf b (List.getElem?_mem hb)

/-- Witness for C1: the two-block sample parses to exactly two records. -/
theorem parsePorcelain_wellFormed_witness :
    (parsePorcelain (encodeBlocks sampleBlocks)).length = 2 :=
  (parsePorcelain_wellFormed sampleBlocks (by decide)).1

/-- C2 (amended): a `detached` line forces branch = none in the final record
provided no `branch` line follows it in the same block; in particular any
`branch` line before the `detached` line is overridden. A `branch` line after
`detached` re-sets the branch (see the counterexample). -/
theorem parsePorcelain_detached_override (blocks : List (List Str))
    (hwf : blocks.all wfBlockB = true) (i : Nat) (b : List Str)
    (pre suf : List Str)
    (hb : blocks[i]? = some b) (hdec : b = pre ++ (str "detached") :: suf)
    (hsuf : ∀ l ∈ suf, hasPrefixCh (str "branch ") l = false) :
    ∀ w, (parsePorcelain (encodeBlocks blocks))[i]? = some w → w.branch = none := by
  intro w hw
  rw [parsePorcelain_encode blocks hwf, recordsFrom_getElem? blocks 0 i b hb] at hw
  have hwb : blockRecord (0 + i) b = w := Option.some.inj hw
  subst hwb
  show ((b.foldl parseLine initFields)).branch = none
  subst hdec
  rw [List.foldl_append, List.foldl_cons]
  exact foldl_parseLine_branch_skip suf _ rfl hsuf

/-- Witness for C2's amended statement: a block whose `branch` line comes
before `detached` yields branch = none. -/
theorem parsePorcelain_detached_override_witness :
    (⟨str "/x", [], none, true, false, false⟩ : Worktree).branch = none :=
  parsePorcelain_detached_override sampleDetachedBlocks (by decide) 0
    [str "worktree /x", str "branch refs/heads/dev", str "detached"]
    [str "worktree /x", str "branch refs/heads/dev"] [] (by decide) rfl
    (by intro l hl; cases hl) ⟨str "/x", [], none, true, false, false⟩ (by decide)

/-- C2 counterexample: a block containing a `detached` line still yields
branch = some "main" when a `branch refs/heads/main` line follows it, so a
`branch` line after `detached` is not overridden. -/
theorem parsePorcelain_detached_cex :
    (str "detached") ∈ splitLines (trimChars (str "worktree /x\ndetached\nbranch refs/heads/main")) ∧
    parsePorcelain (str "worktree /x\ndetached\nbranch refs/heads/main") =
      [⟨str "/x", [], some (str "main"), true, false, false⟩] :=
  ⟨by decide, by decide⟩

/-- Length of a fold that appends one chunk per element. -/
theorem foldl_append_length {α β : Type} (g : β → List α) (ps : List β) :
    ∀ acc : List α,
      (ps.foldl (fun items p => items ++ g p) acc).length =
        acc.length + (ps.map (fun p => (g p).length)).sum := by
  induction ps with
  | nil =>
    intro acc
    simp
  | cons p ps ih =>
    intro acc
    rw [List.foldl_cons, ih]
    simp [List.length_append]
    omega

/-- One project's filtered contribution never exceeds its unfiltered one. -/
theorem projectContribution_length_le (q : Str) (coll : List Str) (p : Project) :
    (projectContribution q coll p).length ≤ (projectContribution [] coll p).length := by
  have hfle : (p.worktrees.filter (fun wt =>
      q.isEmpty ||
        (match wt.branch with
         | some b => containsSub q (lowerStr b)
         | none => false) ||
        containsSub q (lowerStr p.name))).length ≤ p.worktrees.length :=
    List.length_filter_le _ _
  have h1 : (projectContribution [] coll p).length =
      1 + (if coll.contains p.name then 0 else p.worktrees.length) := by
    simp only [projectContribution, List.isEmpty_nil, Bool.true_or, Bool.not_true,
      Bool.false_and, Bool.false_eq_true, if_false, if_true]
    split_ifs <;> simp [Nat.add_comm]
  rw [h1]
  simp only [projectContribution]
  split_ifs
  all_goals simp only [List.length_nil, List.length_cons, List.length_map]
  all_goals omega

/-- The unfiltered flat list is never shorter than any filtered one. -/
theorem build_length_mono (ps : List Project) (coll : List Str) (q : Str) :
    (buildFilteredItems ps coll q).length ≤ (buildFilteredItems ps coll []).length := by
  show ((ps.foldl (fun items p => items ++ projectContribution (lowerStr q) coll p) []).length ≤
    (ps.foldl (fun items p => items ++ projectContribution (lowerStr []) coll p) []).length)
  rw [foldl_append_length, foldl_append_length]
  simp only [List.length_nil, Nat.zero_add]
  apply List.sum_le_sum
  intro p _
  exact projectContribution_length_le (lowerStr q) coll p

/-- The first-worktree index is within bounds when nonnegative. -/
theorem findWorktreeIndex_lt (l : List ListItem) :
    0 ≤ findWorktreeIndex l → findWorktreeIndex l < (l.length : Int) := by
  induction l with
  | nil =>
    intro h
    simp [findWorktreeIndex] at h
  | cons item rest ih =>
    cases item with
    | worktreeItem w p =>
      intro _
      simp only [findWorktreeIndex, List.length_cons]
      omega
    | projectItem p =>
      simp only [findWorktreeIndex, List.length_cons]
      by_cases hr : findWorktreeIndex rest < 0
      · rw [if_pos hr]
        intro h
        omega
      · rw [if_neg hr]
        intro _
        have := ih (by omega)
        omega

/-- Initial states satisfy the cursor invariant. -/
theorem initialState_inv (ps : List Project) : CursorInv (initialState ps) := by
  constructor
  · show (if 0 ≤ findWorktreeIndex (buildFilteredItems ps [] []) then
        (findWorktreeIndex (buildFilteredItems ps [] [])).toNat else 0) ≤
      max 0 ((buildFilteredItems ps [] []).length - 1)
    by_cases h : 0 ≤ findWorktreeIndex (buildFilteredItems ps [] [])
    · rw [if_pos h]
      have := findWorktreeIndex_lt (buildFilteredItems ps [] []) h
      omega
    · rw [if_neg h]
      exact Nat.zero_le _
  · rfl

/-- Every reducer transition preserves the cursor invariant. -/
theorem appReducer_inv (s : AppState) (a : AppAction) (h : CursorInv s) :
    CursorInv (appReducer s a) := by
  obtain ⟨hidx, hitems⟩ := h
  cases a with
  | setProjects ps =>
    exact ⟨Nat.min_le_right _ _, rfl⟩
  | refreshWorktrees ps =>
    exact ⟨Nat.min_le_right _ _, rfl⟩
  | selectProject p =>
    exact ⟨hidx, hitems⟩
  | moveSelection delta =>
    rw [appReducer_moveSelection_eq]
    by_cases hlen : s.filteredItems.length = 0
    · rw [if_pos hlen]
      exact ⟨hidx, hitems⟩
    · rw [if_neg hlen]
      refine ⟨?_, hitems⟩
      show (if ((s.filteredItems.length : Int)) ≤
            (if (s.selectedIndex : Int) + delta < 0 then ((s.filteredItems.length : Int) - 1)
             else (s.selectedIndex : Int) + delta) then 0
          else (if (s.selectedIndex : Int) + delta < 0 then ((s.filteredItems.length : Int) - 1)
             else (s.selectedIndex : Int) + delta)).toNat ≤
        max 0 (s.filteredItems.length - 1)
      split_ifs <;> omega
  | setFilter text =>
    exact ⟨Nat.min_le_right _ _, rfl⟩
  | selectWorktree =>
    have heq : appReducer s .selectWorktree =
        (match s.filteredItems[s.selectedIndex]? with
         | some (.worktreeItem wt _) => { s with selectedPath := some wt.path }
         | _ => s) := rfl
    rw [heq]
    cases s.filteredItems[s.selectedIndex]? with
    | none => exact ⟨hidx, hitems⟩
    | some item =>
      cases item with
      | projectItem p => exact ⟨hidx, hitems⟩
      | worktreeItem w p => exact ⟨hidx, hitems⟩
  | toggleProject name =>
    exact ⟨Nat.min_le_right _ _, rfl⟩
  | showCreate =>
    exact ⟨hidx, hitems⟩
  | showDelete =>
    have heq : appReducer s .showDelete =
        (match s.filteredItems[s.selectedIndex]? with
         | some (.worktreeItem wt _) =>
           if wt.isMain then s else { s with view := .confirmDelete }
         | _ => s) := rfl
    rw [heq]
    cases s.filteredItems[s.selectedIndex]? with
    | none => exact ⟨hidx, hitems⟩
    | some item =>
      cases item with
      | projectItem p => exact ⟨hidx, hitems⟩
      | worktreeItem w p =>
        show CursorInv (if w.isMain = true then s else { s with view := View.confirmDelete })
        split_ifs <;> exact ⟨hidx, hitems⟩
  | showHelp =>
    exact ⟨hidx, hitems⟩
  | showList =>
    refine ⟨?_, rfl⟩
    have hmono := build_length_mono s.projects s.collapsedProjects s.filterText
    rw [← hitems] at hmono
    show s.selectedIndex ≤
      max 0 ((buildFilteredItems s.projects s.collapsedProjects []).length - 1)
    omega
  | setLoading b =>
    exact ⟨hidx, hitems⟩
  | setError e =>
    exact ⟨hidx, hitems⟩

/-- Reachable states satisfy the cursor invariant. -/
theorem reachable_inv (s : AppState) (h : Reachable s) : CursorInv s := by
  induction h with
  | init ps => exact initialState_inv ps
  | step a _ ih => exact appReducer_inv _ a ih

/-- C7: in every state reachable from an initial state via reducer
transitions, the cursor index never exceeds max(0, flat-list length - 1):
every transition that can shrink the flat list clamps the cursor, and an
empty flat list leaves the cursor at 0. -/
theorem reachable_cursor_bound (s : AppState) (h : Reachable s) :
    s.selectedIndex ≤ max 0 (s.filteredItems.length - 1) :=
  (reachable_inv s h).1

/-- Witness for C7 at the concrete sample initial state. -/
theorem reachable_cursor_bound_witness :
    sampleState.selectedIndex ≤ max 0 (sampleState.filteredItems.length - 1) :=
  reachable_cursor_bound sampleState (Reachable.init [sampleProject])

end FishTree
